import Mathlib

/-!
Verification development for the `mongo-sanitizer` recursive sanitization
engine (`src/index.ts`).  The engine walks a JSON-like tree, replaces the
NoSQL operator characters `$` (always) and `.` (unless `allowDots`) in
mapping keys and string values, and reports whether any replacement
occurred.

The embedding models JavaScript values as an inductive tree `Value`,
JavaScript string-`replace` with its `GetSubstitution` semantics for
string replacement arguments, and JavaScript object key insertion
(`newObj[newKey] = v`, which overwrites in place on key collision and
appends otherwise).  Strings are modelled as `List Char`.  Mapping
iteration order is modelled as list (insertion) order, matching the
`for (const key in current)` traversal on plain objects built by the
engine.  A second, heap-level model with an explicit append-only store is
developed further below to settle the non-mutation property.
-/

set_option maxRecDepth 16000

namespace MongoSanitizer

/-- The backquote character (code 96), written via `Char.ofNat`. -/
def backquoteChar : Char := Char.ofNat 96

/-- The single-quote character (code 39), written via `Char.ofNat`. -/
def singleQuoteChar : Char := Char.ofNat 39

/-- The forbidden-character class of the source regexes:
`NO_SQL_CHARS_TO_REPLACE = /\$/g` when `allowDots` is true and
`DOT_NO_SQL_CHARS_TO_REPLACE = /[\$\.]/g` otherwise (src lines 11-12). -/
def isForbidden (allowDots : Bool) (c : Char) : Bool :=
  if allowDots then c = '$' else c = '$' || c = '.'

/-- `s.match(charRegex)` is truthy iff some character of `s` is in the
active forbidden class (the regexes match single characters). -/
def containsForbidden (allowDots : Bool) (s : List Char) : Bool :=
  s.any (isForbidden allowDots)

/-- ECMAScript `GetSubstitution` for a string replacement argument, for a
single-character match of `s` at index `pos` (the regexes of the source
have no capture groups and no named groups, so `$n` and `$<` pass through
literally; `$$`, `$&`, the backquote form and the quote form are the
interpreted patterns). -/
def getSubstitution (s : List Char) (pos : Nat) (matched : Char) :
    List Char → List Char
  | [] => []
  | [c] => if c = '$' then ['$'] else [c]
  | c :: d :: rest =>
    if c = '$' then
      if d = '$' then '$' :: getSubstitution s pos matched rest
      else if d = '&' then matched :: getSubstitution s pos matched rest
      else if d = backquoteChar then
        s.take pos ++ getSubstitution s pos matched rest
      else if d = singleQuoteChar then
        s.drop (pos + 1) ++ getSubstitution s pos matched rest
      else '$' :: getSubstitution s pos matched (d :: rest)
    else c :: getSubstitution s pos matched (d :: rest)

/-- Worker for `jsReplace`: `s` is the whole subject string, `pos` the
index of the character at the head of `todo` within `s`. -/
def jsReplaceGo (allowDots : Bool) (repl s : List Char) :
    Nat → List Char → List Char
  | _, [] => []
  | pos, c :: rest =>
    if isForbidden allowDots c then
      getSubstitution s pos c repl ++ jsReplaceGo allowDots repl s (pos + 1) rest
    else c :: jsReplaceGo allowDots repl s (pos + 1) rest

/-- JavaScript `s.replace(charRegex, replaceWith)` with a global
single-character regex: every forbidden character is replaced by the
`GetSubstitution` expansion of `replaceWith` at its match position. -/
def jsReplace (allowDots : Bool) (repl s : List Char) : List Char :=
  jsReplaceGo allowDots repl s 0 s

/-- JSON-like JavaScript values reachable by the engine.  `other` stands
for values that are neither strings, numbers, booleans, `null`, plain
objects nor arrays (functions, class instances, ...); the `tag`
distinguishes such opaque scalars from one another. -/
inductive Value where
  | str (s : List Char)
  | num (n : Int)
  | bool (b : Bool)
  | null
  | obj (entries : List (List Char × Value))
  | arr (elems : List Value)
  | other (tag : Nat)

/-- `isPlainObject` (src lines 28-35): true exactly for plain objects —
not arrays, not `null`, not class instances or functions. -/
def isPlainObject : Value → Bool
  | Value.obj _ => true
  | _ => false

/-- `Array.isArray`. -/
def isArray : Value → Bool
  | Value.arr _ => true
  | _ => false

/-- The engine's option record after normalization (src lines 57-63):
`replaceWith` defaults to `"_"` when absent or not a string, `dryRun` and
`allowDots` default to `false`. -/
structure Policy where
  replaceWith : List Char
  dryRun : Bool
  allowDots : Bool

/-- The policy produced by an empty options object. -/
def defaultPolicy : Policy := ⟨['_'], false, false⟩

/-- Key rewriting of src lines 132-135: replace only when the key matches
the active regex. -/
def sanitizeKey (p : Policy) (k : List Char) : List Char :=
  if containsForbidden p.allowDots k then jsReplace p.allowDots p.replaceWith k
  else k

/-- String-value handling shared by the object branch (src lines 144-154)
and the array branch (src lines 169-176): on a match, replace and raise
the flag unless `dryRun`, in which case the original string is kept and
the flag is left alone. -/
def sanitizeStringValue (p : Policy) (s : List Char) (flag : Bool) :
    List Char × Bool :=
  if containsForbidden p.allowDots s then
    if p.dryRun then (s, flag)
    else (jsReplace p.allowDots p.replaceWith s, true)
  else (s, flag)

/-- `newObj[newKey] = v` on a plain object: overwrite in place when the
key is already present (keeping its position), append otherwise. -/
def jsInsert {α : Type} (l : List (List Char × α)) (k : List Char) (v : α) :
    List (List Char × α) :=
  if l.any (fun e => e.1 == k) then
    l.map (fun e => if e.1 == k then (k, v) else e)
  else l ++ [(k, v)]

mutual

/-- `_recursiveSanitize` (src lines 119-183): dispatch on the shape of the
current node; the `hasSanitized` closure variable is threaded explicitly
as `flag`.  Nodes that are neither plain objects nor arrays fall through
unchanged (src line 182), including strings, which are only rewritten when
reached as object entries or array elements. -/
def recSanitize (p : Policy) : Value → Bool → Value × Bool
  | Value.obj entries, flag =>
    let r := recSanitizeEntries p entries [] flag
    (Value.obj r.1, r.2)
  | Value.arr elems, flag =>
    let r := recSanitizeItems p elems flag
    (Value.arr r.1, r.2)
  | x, flag => (x, flag)
termination_by structural v => v

/-- The `for (const key in current)` loop of the object branch (src lines
120-160): per entry, rewrite the key (flag raised only when not `dryRun`,
src line 134), then transform the value (containers recurse, strings are
rewritten with the flag raised only when not `dryRun`, anything else
passes through, src lines 137-157), and write the result into the fresh
output object `acc` by JavaScript property assignment. -/
def recSanitizeEntries (p : Policy) :
    List (List Char × Value) → List (List Char × Value) → Bool →
      List (List Char × Value) × Bool
  | [], acc, flag => (acc, flag)
  | (k, val) :: rest, acc, flag =>
    let newKey := sanitizeKey p k
    let flag1 := if containsForbidden p.allowDots k && !p.dryRun then true else flag
    let st :=
      if isPlainObject val || isArray val then recSanitize p val flag1
      else
        match val with
        | Value.str s =>
          let r := sanitizeStringValue p s flag1
          (Value.str r.1, r.2)
        | x => (x, flag1)
    recSanitizeEntries p rest (jsInsert acc newKey st.1) st.2
termination_by structural l => l

/-- The `current.map(...)` of the array branch (src lines 161-180): each
element is transformed in order (containers recurse, strings are
rewritten with the flag raised only when not `dryRun`, anything else
passes through, src lines 162-179). -/
def recSanitizeItems (p : Policy) : List Value → Bool → List Value × Bool
  | [], flag => ([], flag)
  | item :: rest, flag =>
    let st :=
      if isPlainObject item || isArray item then recSanitize p item flag
      else
        match item with
        | Value.str s =>
          let r := sanitizeStringValue p s flag
          (Value.str r.1, r.2)
        | x => (x, flag)
    let r := recSanitizeItems p rest st.2
    (st.1 :: r.1, r.2)
termination_by structural l => l

end

/-- The per-value dispatch duplicated between the object branch (src
lines 137-157) and the array branch (src lines 162-179), factored out
for specification reuse; `recSanitizeEntries` and `recSanitizeItems`
unfold to it definitionally. -/
def valueStep (p : Policy) (val : Value) (flag : Bool) : Value × Bool :=
  if isPlainObject val || isArray val then recSanitize p val flag
  else
    match val with
    | Value.str s =>
      let r := sanitizeStringValue p s flag
      (Value.str r.1, r.2)
    | x => (x, flag)

/-- Result record of `_sanitize`. -/
structure SanitizeResult where
  isSanitized : Bool
  target : Value

/-- `lodash.clonedeep` at the level of pure values: a deep structural
copy is observably the identity on the tree (aliasing and in-place
mutation are analysed separately in the heap model below). -/
def cloneDeep (v : Value) : Value := v

/-- `_sanitize` (src lines 53-188): string roots are rewritten directly
(flag raised even under `dryRun`, src lines 79-85); non-container roots
pass through; container roots are deep-copied, recursively sanitized, and
under `dryRun` the original root is returned (src line 187). -/
def _sanitize (p : Policy) (v : Value) : SanitizeResult :=
  match v with
  | Value.str s =>
    if containsForbidden p.allowDots s then
      { isSanitized := true
        target := Value.str (if p.dryRun then s else jsReplace p.allowDots p.replaceWith s) }
    else { isSanitized := false, target := Value.str s }
  | Value.obj entries =>
    let target := cloneDeep (Value.obj entries)
    let r := recSanitize p target false
    { isSanitized := r.2, target := if p.dryRun then Value.obj entries else r.1 }
  | Value.arr elems =>
    let target := cloneDeep (Value.arr elems)
    let r := recSanitize p target false
    { isSanitized := r.2, target := if p.dryRun then Value.arr elems else r.1 }
  | x => { isSanitized := false, target := x }

/-- Public `sanitize` (src lines 206-211). -/
def sanitize (p : Policy) (v : Value) : Value :=
  (_sanitize p v).target

/-- The policy built by `has`'s call `_sanitize(value, { dryRun: true })`:
`replaceWith` and `allowDots` take their defaults. -/
def hasPolicy : Policy := ⟨['_'], true, false⟩

/-- Public `has` (src lines 227-229): run `_sanitize` with `dryRun`
forced and return only the flag. -/
def has (v : Value) : Bool :=
  (_sanitize hasPolicy v).isSanitized

/-- The value produced for one object entry value or array element (the
flag plays no role in the produced value, proved below). -/
def elemSan (p : Policy) (item : Value) : Value :=
  (valueStep p item false).1

/-- Elements of an array value (and `[]` on non-arrays). -/
def arrElemsOf : Value → List Value
  | Value.arr xs => xs
  | _ => []

/-- Entries of a mapping value (and `[]` on non-mappings). -/
def objEntriesOf : Value → List (List Char × Value)
  | Value.obj xs => xs
  | _ => []

/-- Left-biased choice on `Option`, used to state lookups and
"last entry wins" searches. -/
def orElseO {α : Type} : Option α → Option α → Option α
  | some w, _ => some w
  | none, o => o

/-- JavaScript property read on a mapping: the value of the first entry
carrying the key (entry lists built by the engine never hold a key
twice). -/
def lookupKey {α : Type} : List (List Char × α) → List Char → Option α
  | [], _ => none
  | e :: rest, k => if e.1 == k then some e.2 else lookupKey rest k

/-- The sanitized value of the *last* entry whose key sanitizes to `s` —
the value that last-write-wins reconstruction must leave at output key
`s` (`none` when no entry maps to `s`). -/
def lastEntrySan (p : Policy) : List (List Char × Value) → List Char → Option Value
  | [], _ => none
  | (k, v) :: rest, s =>
    orElseO (lastEntrySan p rest s)
      (if sanitizeKey p k == s then some (elemSan p v) else none)

/-- Modelled from the spec: "Replacement is literal, character-by-character
(not regex-capture-group substitution); multiple occurrences are all
replaced, not just the first" — each forbidden character is replaced by
the replacement string inserted verbatim; it is the comparison point for
the behaviour of the JavaScript `replace` the code actually performs. -/
def literalReplaceAll (ad : Bool) (repl : List Char) : List Char → List Char
  | [] => []
  | c :: rest =>
    (if isForbidden ad c then repl else [c]) ++ literalReplaceAll ad repl rest

mutual

/-- No forbidden character (w.r.t. dot policy `ad`) occurs in any string
value or mapping key of the tree. -/
def cleanV (ad : Bool) : Value → Bool
  | Value.str s => !containsForbidden ad s
  | Value.obj entries => cleanEntries ad entries
  | Value.arr items => cleanItems ad items
  | _ => true

def cleanEntries (ad : Bool) : List (List Char × Value) → Bool
  | [] => true
  | (k, v) :: rest => !containsForbidden ad k && cleanV ad v && cleanEntries ad rest

def cleanItems (ad : Bool) : List Value → Bool
  | [] => true
  | v :: rest => cleanV ad v && cleanItems ad rest

end

/-- No key occurs twice in the list (JavaScript objects cannot carry
duplicate keys, so every tree handed to the engine satisfies this). -/
def keysNodupB : List (List Char) → Bool
  | [] => true
  | k :: rest => !(rest.any fun x => x == k) && keysNodupB rest

mutual

/-- Every mapping anywhere in the tree has pairwise distinct keys. -/
def nodupKeysV : Value → Bool
  | Value.obj entries => keysNodupB (entries.map Prod.fst) && nodupEntries entries
  | Value.arr items => nodupItems items
  | _ => true

def nodupEntries : List (List Char × Value) → Bool
  | [] => true
  | (_, v) :: rest => nodupKeysV v && nodupEntries rest

def nodupItems : List Value → Bool
  | [] => true
  | v :: rest => nodupKeysV v && nodupItems rest

end

/-!
Heap-level model.  JavaScript objects live on a heap and the caller's
input is passed by reference; the non-mutation property is about that
heap.  Values are references (`Nat`) into an explicit store; every object
the engine creates (the `cloneDeep` copy, each fresh `newObj`, each
rewritten string) is a fresh allocation appended at the end of the store,
exactly as the code only ever writes into objects it just created.  The
functions are fuel-indexed so that they are total; reference cycles (for
which the engine's behaviour is unspecified) simply exhaust the fuel.
-/

/-- A heap node: the one-level shape of a JavaScript value, with
references in place of children. -/
inductive HNode where
  | str (s : List Char)
  | num (n : Int)
  | bool (b : Bool)
  | null
  | obj (entries : List (List Char × Nat))
  | arr (elems : List Nat)
  | other (tag : Nat)

/-- The heap: allocation appends, a reference is an index. -/
abbrev Store := List HNode

/-- The child references held by a node. -/
def refsOf : HNode → List Nat
  | HNode.obj entries => entries.map Prod.snd
  | HNode.arr elems => elems
  | _ => []

/-- A closed store: every reference held by a node is a valid index. -/
def storeWF (σ : Store) : Bool :=
  σ.all fun n => (refsOf n).all fun r => decide (r < σ.length)

/-- The store only ever grows at the end. -/
def StoreExtends (σ σ' : Store) : Prop :=
  ∃ tail, σ' = σ ++ tail

mutual

/-- `lodash.clonedeep` on the heap: structurally copy the reachable graph
into fresh nodes appended to the store, returning the copy's root. -/
def cloneDeepH : Nat → Store → Nat → Option (Store × Nat)
  | 0, _, _ => none
  | fuel + 1, σ, r =>
    match σ[r]? with
    | none => none
    | some (HNode.obj entries) =>
      match cloneEntriesH fuel σ entries with
      | none => none
      | some (σ1, entries1) => some (σ1 ++ [HNode.obj entries1], σ1.length)
    | some (HNode.arr elems) =>
      match cloneItemsH fuel σ elems with
      | none => none
      | some (σ1, elems1) => some (σ1 ++ [HNode.arr elems1], σ1.length)
    | some n => some (σ ++ [n], σ.length)

def cloneEntriesH :
    Nat → Store → List (List Char × Nat) →
      Option (Store × List (List Char × Nat))
  | 0, _, _ => none
  | _ + 1, σ, [] => some (σ, [])
  | fuel + 1, σ, (k, r) :: rest =>
    match cloneDeepH fuel σ r with
    | none => none
    | some (σ1, r1) =>
      match cloneEntriesH fuel σ1 rest with
      | none => none
      | some (σ2, rest1) => some (σ2, (k, r1) :: rest1)

def cloneItemsH : Nat → Store → List Nat → Option (Store × List Nat)
  | 0, _, _ => none
  | _ + 1, σ, [] => some (σ, [])
  | fuel + 1, σ, r :: rest =>
    match cloneDeepH fuel σ r with
    | none => none
    | some (σ1, r1) =>
      match cloneItemsH fuel σ1 rest with
      | none => none
      | some (σ2, rest1) => some (σ2, r1 :: rest1)

end

mutual

/-- Heap-level `_recursiveSanitize`: containers rebuild into freshly
allocated nodes; anything else is returned as the same reference. -/
def recSanH : Nat → Policy → Store → Nat → Bool → Option (Store × Nat × Bool)
  | 0, _, _, _, _ => none
  | fuel + 1, p, σ, r, flag =>
    match σ[r]? with
    | none => none
    | some (HNode.obj entries) =>
      match recSanEntriesH fuel p σ entries [] flag with
      | none => none
      | some (σ1, acc, flag1) => some (σ1 ++ [HNode.obj acc], σ1.length, flag1)
    | some (HNode.arr elems) =>
      match recSanItemsH fuel p σ elems flag with
      | none => none
      | some (σ1, refs, flag1) => some (σ1 ++ [HNode.arr refs], σ1.length, flag1)
    | some _ => some (σ, r, flag)

/-- Heap-level per-value dispatch (shared shape of src lines 137-157 and
162-179): containers recurse, strings are rewritten into a fresh string
node unless `dryRun`, everything else is passed through by reference. -/
def valueStepH : Nat → Policy → Store → Nat → Bool → Option (Store × Nat × Bool)
  | 0, _, _, _, _ => none
  | fuel + 1, p, σ, r, flag =>
    match σ[r]? with
    | none => none
    | some (HNode.obj _) => recSanH fuel p σ r flag
    | some (HNode.arr _) => recSanH fuel p σ r flag
    | some (HNode.str s) =>
      if containsForbidden p.allowDots s then
        if p.dryRun then some (σ, r, flag)
        else
          some (σ ++ [HNode.str (jsReplace p.allowDots p.replaceWith s)],
            σ.length, true)
      else some (σ, r, flag)
    | some _ => some (σ, r, flag)

def recSanEntriesH :
    Nat → Policy → Store → List (List Char × Nat) → List (List Char × Nat) →
      Bool → Option (Store × List (List Char × Nat) × Bool)
  | 0, _, _, _, _, _ => none
  | _ + 1, _, σ, [], acc, flag => some (σ, acc, flag)
  | fuel + 1, p, σ, (k, vr) :: rest, acc, flag =>
    let newKey := sanitizeKey p k
    let flag1 := if containsForbidden p.allowDots k && !p.dryRun then true else flag
    match valueStepH fuel p σ vr flag1 with
    | none => none
    | some (σ1, vr1, flag2) =>
      recSanEntriesH fuel p σ1 rest (jsInsert acc newKey vr1) flag2

def recSanItemsH :
    Nat → Policy → Store → List Nat → Bool → Option (Store × List Nat × Bool)
  | 0, _, _, _, _ => none
  | _ + 1, _, σ, [], flag => some (σ, [], flag)
  | fuel + 1, p, σ, ir :: rest, flag =>
    match valueStepH fuel p σ ir flag with
    | none => none
    | some (σ1, ir1, flag2) =>
      match recSanItemsH fuel p σ1 rest flag2 with
      | none => none
      | some (σ2, rest1, flag3) => some (σ2, ir1 :: rest1, flag3)

end

/-- Heap-level `_sanitize` (src lines 53-188): a string root is rewritten
directly; container roots are deep-copied, recursively sanitized, and the
original root reference is returned under `dryRun`; everything else
passes through.  Returns `(store, isSanitized, target)`. -/
def _sanitizeH : Nat → Policy → Store → Nat → Option (Store × Bool × Nat)
  | 0, _, _, _ => none
  | fuel + 1, p, σ, r =>
    match σ[r]? with
    | none => none
    | some (HNode.str s) =>
      if containsForbidden p.allowDots s then
        if p.dryRun then some (σ, true, r)
        else
          some (σ ++ [HNode.str (jsReplace p.allowDots p.replaceWith s)],
            true, σ.length)
      else some (σ, false, r)
    | some (HNode.obj _) =>
      match cloneDeepH fuel σ r with
      | none => none
      | some (σ1, r1) =>
        match recSanH fuel p σ1 r1 false with
        | none => none
        | some (σ2, r2, flag) => some (σ2, flag, if p.dryRun then r else r2)
    | some (HNode.arr _) =>
      match cloneDeepH fuel σ r with
      | none => none
      | some (σ1, r1) =>
        match recSanH fuel p σ1 r1 false with
        | none => none
        | some (σ2, r2, flag) => some (σ2, flag, if p.dryRun then r else r2)
    | some _ => some (σ, false, r)

mutual

/-- Read the tree rooted at a reference back into a pure `Value`: the
observable (deep-equality class) of a heap value. -/
def decodeH : Nat → Store → Nat → Option Value
  | 0, _, _ => none
  | fuel + 1, σ, r =>
    match σ[r]? with
    | none => none
    | some (HNode.str s) => some (Value.str s)
    | some (HNode.num n) => some (Value.num n)
    | some (HNode.bool b) => some (Value.bool b)
    | some HNode.null => some Value.null
    | some (HNode.other t) => some (Value.other t)
    | some (HNode.obj entries) =>
      match decodeEntriesH fuel σ entries with
      | none => none
      | some l => some (Value.obj l)
    | some (HNode.arr elems) =>
      match decodeItemsH fuel σ elems with
      | none => none
      | some l => some (Value.arr l)

def decodeEntriesH :
    Nat → Store → List (List Char × Nat) → Option (List (List Char × Value))
  | 0, _, _ => none
  | _ + 1, _, [] => some []
  | fuel + 1, σ, (k, r) :: rest =>
    match decodeH fuel σ r with
    | none => none
    | some v =>
      match decodeEntriesH fuel σ rest with
      | none => none
      | some l => some ((k, v) :: l)

def decodeItemsH : Nat → Store → List Nat → Option (List Value)
  | 0, _, _ => none
  | _ + 1, _, [] => some []
  | fuel + 1, σ, r :: rest =>
    match decodeH fuel σ r with
    | none => none
    | some v =>
      match decodeItemsH fuel σ rest with
      | none => none
      | some l => some (v :: l)

end

/-- A small concrete heap used to witness the non-mutation theorem: node
1 is an object with a `$`-key whose value is node 0, a dirty string. -/
def exampleStore : Store :=
  [HNode.str ("a$b".toList), HNode.obj [(("$k".toList), 0)]]

/-!  Theorems.  First a layer of unfolding equations and small lemmas
about the string machinery, then the per-claim results. -/

theorem recSanitizeEntries_cons (p : Policy) (k : List Char) (val : Value)
    (rest acc : List (List Char × Value)) (flag : Bool) :
    recSanitizeEntries p ((k, val) :: rest) acc flag =
      recSanitizeEntries p rest
        (jsInsert acc (sanitizeKey p k)
          (valueStep p val
            (if containsForbidden p.allowDots k && !p.dryRun then true else flag)).1)
        (valueStep p val
          (if containsForbidden p.allowDots k && !p.dryRun then true else flag)).2 :=
  rfl

theorem recSanitizeItems_cons (p : Policy) (item : Value) (rest : List Value)
    (flag : Bool) :
    recSanitizeItems p (item :: rest) flag =
      ((valueStep p item flag).1
          :: (recSanitizeItems p rest (valueStep p item flag).2).1,
        (recSanitizeItems p rest (valueStep p item flag).2).2) :=
  rfl

theorem _sanitize_str (p : Policy) (s : List Char) :
    _sanitize p (Value.str s)
      = if containsForbidden p.allowDots s then
          { isSanitized := true
            target := Value.str
              (if p.dryRun then s else jsReplace p.allowDots p.replaceWith s) }
        else { isSanitized := false, target := Value.str s } :=
  rfl

theorem containsForbidden_cons (ad : Bool) (c : Char) (rest : List Char) :
    containsForbidden ad (c :: rest)
      = (isForbidden ad c || containsForbidden ad rest) :=
  rfl

theorem sanitizeStringValue_fst (p : Policy) (s : List Char) (f1 f2 : Bool) :
    (sanitizeStringValue p s f1).1 = (sanitizeStringValue p s f2).1 := by
  unfold sanitizeStringValue
  by_cases h : containsForbidden p.allowDots s = true <;>
    by_cases hd : p.dryRun = true <;> simp [h, hd]

mutual

theorem recSanitize_fst (p : Policy) (v : Value) (f1 f2 : Bool) :
    (recSanitize p v f1).1 = (recSanitize p v f2).1 := by
  match v with
  | Value.obj entries =>
    exact congrArg Value.obj (recSanitizeEntries_fst p entries [] f1 f2)
  | Value.arr elems =>
    exact congrArg Value.arr (recSanitizeItems_fst p elems f1 f2)
  | Value.str s => rfl
  | Value.num n => rfl
  | Value.bool b => rfl
  | Value.null => rfl
  | Value.other t => rfl

theorem valueStep_fst (p : Policy) (val : Value) (f1 f2 : Bool) :
    (valueStep p val f1).1 = (valueStep p val f2).1 := by
  unfold valueStep
  by_cases h : (isPlainObject val || isArray val) = true
  · simp only [h, if_true]
    exact recSanitize_fst p val f1 f2
  · simp only [h, Bool.false_eq_true, if_false]
    match val with
    | Value.str s => exact congrArg (fun t => Value.str t) (sanitizeStringValue_fst p s f1 f2)
    | Value.num n => rfl
    | Value.bool b => rfl
    | Value.null => rfl
    | Value.obj l => rfl
    | Value.arr l => rfl
    | Value.other t => rfl

theorem recSanitizeEntries_fst (p : Policy) (entries : List (List Char × Value))
    (acc : List (List Char × Value)) (f1 f2 : Bool) :
    (recSanitizeEntries p entries acc f1).1
      = (recSanitizeEntries p entries acc f2).1 := by
  match entries with
  | [] => rfl
  | (k, val) :: rest =>
    rw [recSanitizeEntries_cons, recSanitizeEntries_cons]
    rw [valueStep_fst p val
      (if containsForbidden p.allowDots k && !p.dryRun then true else f1)
      (if containsForbidden p.allowDots k && !p.dryRun then true else f2)]
    exact recSanitizeEntries_fst p rest _ _ _

theorem recSanitizeItems_fst (p : Policy) (items : List Value) (f1 f2 : Bool) :
    (recSanitizeItems p items f1).1 = (recSanitizeItems p items f2).1 := by
  match items with
  | [] => rfl
  | item :: rest =>
    rw [recSanitizeItems_cons, recSanitizeItems_cons]
    simp only []
    rw [valueStep_fst p item f1 f2]
    rw [recSanitizeItems_fst p rest (valueStep p item f1).2 (valueStep p item f2).2]

end

theorem getSubstitution_no_dollar (s : List Char) (pos : Nat) (c : Char)
    (repl : List Char) (h : '$' ∉ repl) :
    getSubstitution s pos c repl = repl := by
  induction repl with
  | nil => rfl
  | cons a rest ih =>
    have ha : ¬(a = '$') := fun e => h (e ▸ List.mem_cons_self a rest)
    have hrest : '$' ∉ rest := fun hm => h (List.mem_cons_of_mem a hm)
    cases rest with
    | nil => simp [getSubstitution, ha]
    | cons d rest2 => simp [getSubstitution, ha, ih hrest]

theorem jsReplaceGo_literal (ad : Bool) (repl s : List Char) (h : '$' ∉ repl)
    (pos : Nat) (todo : List Char) :
    jsReplaceGo ad repl s pos todo = literalReplaceAll ad repl todo := by
  induction todo generalizing pos with
  | nil => rfl
  | cons c rest ih =>
    rw [jsReplaceGo, literalReplaceAll]
    by_cases hc : isForbidden ad c = true
    · simp only [hc, if_true]
      rw [getSubstitution_no_dollar s pos c repl h, ih]
    · simp only [hc, Bool.false_eq_true, if_false]
      rw [ih]
      rfl

theorem jsReplace_literal (ad : Bool) (repl s : List Char) (h : '$' ∉ repl) :
    jsReplace ad repl s = literalReplaceAll ad repl s :=
  jsReplaceGo_literal ad repl s h 0 s

theorem literalReplaceAll_of_clean (ad : Bool) (repl : List Char) (s : List Char)
    (h : containsForbidden ad s = false) : literalReplaceAll ad repl s = s := by
  induction s with
  | nil => rfl
  | cons c rest ih =>
    rw [containsForbidden_cons, Bool.or_eq_false_iff] at h
    rw [literalReplaceAll]
    simp only [h.1, Bool.false_eq_true, if_false]
    rw [ih h.2]
    rfl

theorem any_fst_beq_false_iff {α : Type} (l : List (List Char × α)) (k : List Char) :
    l.any (fun e => e.1 == k) = false ↔ ∀ e ∈ l, e.1 ≠ k := by
  rw [← Bool.not_eq_true, List.any_eq_true]
  constructor
  · intro h e he hek
    exact h ⟨e, he, by simp [hek]⟩
  · rintro h ⟨e, he, hek⟩
    exact h e he (by simpa using hek)

theorem any_beq_false_iff (l : List (List Char)) (k : List Char) :
    (l.any fun x => x == k) = false ↔ ∀ x ∈ l, x ≠ k := by
  rw [← Bool.not_eq_true, List.any_eq_true]
  constructor
  · intro h x hx hxk
    exact h ⟨x, hx, by simp [hxk]⟩
  · rintro h ⟨x, hx, hxk⟩
    exact h x hx (by simpa using hxk)

theorem jsInsert_of_not_mem {α : Type} (l : List (List Char × α)) (k : List Char)
    (v : α) (h : l.any (fun e => e.1 == k) = false) :
    jsInsert l k v = l ++ [(k, v)] := by
  unfold jsInsert
  rw [if_neg (by simp [h] : ¬(l.any (fun e => e.1 == k) = true))]

theorem jsInsert_length_le {α : Type} (l : List (List Char × α)) (k : List Char)
    (v : α) : (jsInsert l k v).length ≤ l.length + 1 := by
  unfold jsInsert
  by_cases h : l.any (fun e => e.1 == k) = true
  · rw [if_pos h, List.length_map]
    exact Nat.le_succ _
  · rw [if_neg h, List.length_append]
    exact Nat.le_refl _

theorem sanitizeKey_of_clean (p : Policy) (k : List Char)
    (h : containsForbidden p.allowDots k = false) : sanitizeKey p k = k := by
  simp [sanitizeKey, h]

theorem sanitizeStringValue_of_clean (p : Policy) (s : List Char) (flag : Bool)
    (h : containsForbidden p.allowDots s = false) :
    sanitizeStringValue p s flag = (s, flag) := by
  simp [sanitizeStringValue, h]

theorem cleanEntries_cons_iff (ad : Bool) (k : List Char) (v : Value)
    (rest : List (List Char × Value)) :
    cleanEntries ad ((k, v) :: rest) = true
      ↔ containsForbidden ad k = false ∧ cleanV ad v = true
          ∧ cleanEntries ad rest = true := by
  rw [cleanEntries]
  simp [Bool.and_assoc]

theorem nodupEntries_cons_iff (k : List Char) (v : Value)
    (rest : List (List Char × Value)) :
    nodupEntries ((k, v) :: rest) = true
      ↔ nodupKeysV v = true ∧ nodupEntries rest = true := by
  rw [nodupEntries]
  simp

theorem keysNodupB_cons_iff (k : List Char) (rest : List (List Char)) :
    keysNodupB (k :: rest) = true
      ↔ (rest.any fun x => x == k) = false ∧ keysNodupB rest = true := by
  rw [keysNodupB]
  simp

mutual

theorem recSanitize_clean_id (p : Policy) (v : Value) (flag : Bool)
    (h1 : cleanV p.allowDots v = true) (h2 : nodupKeysV v = true) :
    recSanitize p v flag = (v, flag) := by
  match v with
  | Value.obj entries =>
    have h2' : keysNodupB (entries.map Prod.fst) = true ∧ nodupEntries entries = true := by
      rw [nodupKeysV] at h2
      simpa using h2
    have he := recSanitizeEntries_clean_id p entries [] flag
      (by rw [cleanV] at h1; exact h1) h2'.2 h2'.1 (fun k2 _ => rfl)
    calc recSanitize p (Value.obj entries) flag
        = (Value.obj (recSanitizeEntries p entries [] flag).1,
            (recSanitizeEntries p entries [] flag).2) := rfl
      _ = (Value.obj entries, flag) := by rw [he]; rfl
  | Value.arr elems =>
    have he := recSanitizeItems_clean_id p elems flag
      (by rw [cleanV] at h1; exact h1) (by rw [nodupKeysV] at h2; exact h2)
    calc recSanitize p (Value.arr elems) flag
        = (Value.arr (recSanitizeItems p elems flag).1,
            (recSanitizeItems p elems flag).2) := rfl
      _ = (Value.arr elems, flag) := by rw [he]
  | Value.str s => rfl
  | Value.num n => rfl
  | Value.bool b => rfl
  | Value.null => rfl
  | Value.other t => rfl

theorem valueStep_clean_id (p : Policy) (val : Value) (flag : Bool)
    (h1 : cleanV p.allowDots val = true) (h2 : nodupKeysV val = true) :
    valueStep p val flag = (val, flag) := by
  match val with
  | Value.obj l => exact recSanitize_clean_id p (Value.obj l) flag h1 h2
  | Value.arr l => exact recSanitize_clean_id p (Value.arr l) flag h1 h2
  | Value.str s =>
    have h1' : containsForbidden p.allowDots s = false := by
      rw [cleanV] at h1
      simpa using h1
    calc valueStep p (Value.str s) flag
        = (Value.str (sanitizeStringValue p s flag).1,
            (sanitizeStringValue p s flag).2) := rfl
      _ = (Value.str s, flag) := by rw [sanitizeStringValue_of_clean p s flag h1']
  | Value.num n => rfl
  | Value.bool b => rfl
  | Value.null => rfl
  | Value.other t => rfl

theorem recSanitizeEntries_clean_id (p : Policy)
    (entries acc : List (List Char × Value)) (flag : Bool)
    (h1 : cleanEntries p.allowDots entries = true)
    (h2 : nodupEntries entries = true)
    (h3 : keysNodupB (entries.map Prod.fst) = true)
    (h4 : ∀ e ∈ entries, acc.any (fun e2 => e2.1 == e.1) = false) :
    recSanitizeEntries p entries acc flag = (acc ++ entries, flag) := by
  match entries with
  | [] => simp [recSanitizeEntries]
  | (k, val) :: rest =>
    obtain ⟨hk, hv, hrest⟩ := (cleanEntries_cons_iff p.allowDots k val rest).mp h1
    obtain ⟨hnv, hnrest⟩ := (nodupEntries_cons_iff k val rest).mp h2
    obtain ⟨hknot, hkrest⟩ := (keysNodupB_cons_iff k (rest.map Prod.fst)).mp h3
    rw [recSanitizeEntries_cons, sanitizeKey_of_clean p k hk]
    rw [valueStep_clean_id p val _ hv hnv]
    simp only [hk, Bool.false_and, Bool.false_eq_true, if_false]
    rw [jsInsert_of_not_mem acc k val (h4 (k, val) (List.mem_cons_self _ _))]
    have h4' : ∀ e ∈ rest, (acc ++ [(k, val)]).any (fun e2 => e2.1 == e.1) = false := by
      intro e he
      rw [List.any_append, Bool.or_eq_false_iff]
      refine ⟨h4 e (List.mem_cons_of_mem _ he), ?_⟩
      have hne : e.1 ≠ k := by
        have := (any_beq_false_iff (rest.map Prod.fst) k).mp hknot
        exact fun hek => this e.1 (List.mem_map_of_mem Prod.fst he) hek
      have hbe : (k == e.1) = false := by
        simp only [beq_eq_false_iff_ne, ne_eq]
        exact fun h => hne h.symm
      simp [hbe]
    rw [recSanitizeEntries_clean_id p rest (acc ++ [(k, val)]) flag hrest hnrest hkrest h4']
    rw [List.append_assoc]
    rfl

theorem recSanitizeItems_clean_id (p : Policy) (items : List Value) (flag : Bool)
    (h1 : cleanItems p.allowDots items = true) (h2 : nodupItems items = true) :
    recSanitizeItems p items flag = (items, flag) := by
  match items with
  | [] => rfl
  | item :: rest =>
    have h1' : cleanV p.allowDots item = true ∧ cleanItems p.allowDots rest = true := by
      rw [cleanItems] at h1
      simpa using h1
    have h2' : nodupKeysV item = true ∧ nodupItems rest = true := by
      rw [nodupItems] at h2
      simpa using h2
    rw [recSanitizeItems_cons, valueStep_clean_id p item flag h1'.1 h2'.1]
    rw [recSanitizeItems_clean_id p rest flag h1'.2 h2'.2]

end

/-- A tree without forbidden characters and without duplicate keys passes
through `_sanitize` unchanged, with the flag `false`, under every
policy. -/
theorem _sanitize_clean_id (p : Policy) (v : Value)
    (h1 : cleanV p.allowDots v = true) (h2 : nodupKeysV v = true) :
    _sanitize p v = ⟨false, v⟩ := by
  match v with
  | Value.str s =>
    have h1' : containsForbidden p.allowDots s = false := by
      rw [cleanV] at h1
      simpa using h1
    simp [_sanitize, h1']
  | Value.obj entries =>
    have he := recSanitize_clean_id p (Value.obj entries) false h1 h2
    simp only [_sanitize, cloneDeep, he]
    cases p.dryRun <;> rfl
  | Value.arr elems =>
    have he := recSanitize_clean_id p (Value.arr elems) false h1 h2
    simp only [_sanitize, cloneDeep, he]
    cases p.dryRun <;> rfl
  | Value.num n => rfl
  | Value.bool b => rfl
  | Value.null => rfl
  | Value.other t => rfl

theorem any_eq_false_of_all {α : Type} (l : List α) (f : α → Bool)
    (h : ∀ x ∈ l, f x = false) : l.any f = false := by
  rw [← Bool.not_eq_true, List.any_eq_true]
  rintro ⟨x, hx, hfx⟩
  rw [h x hx] at hfx
  exact Bool.false_ne_true hfx

theorem literalReplaceAll_clean (ad : Bool) (repl : List Char)
    (hr : ∀ c ∈ repl, isForbidden ad c = false) (s : List Char) :
    containsForbidden ad (literalReplaceAll ad repl s) = false := by
  induction s with
  | nil => rfl
  | cons c rest ih =>
    rw [literalReplaceAll]
    by_cases hc : isForbidden ad c = true
    · rw [if_pos hc]
      unfold containsForbidden at ih ⊢
      rw [List.any_append, Bool.or_eq_false_iff]
      exact ⟨any_eq_false_of_all repl _ hr, ih⟩
    · rw [if_neg hc]
      unfold containsForbidden at ih ⊢
      rw [List.any_append, Bool.or_eq_false_iff]
      refine ⟨?_, ih⟩
      have : isForbidden ad c = false := by
        cases h : isForbidden ad c
        · rfl
        · exact absurd h hc
      simp [this]

theorem jsReplace_clean (ad : Bool) (repl s : List Char)
    (hr1 : ∀ c ∈ repl, isForbidden ad c = false) (hr2 : '$' ∉ repl) :
    containsForbidden ad (jsReplace ad repl s) = false := by
  rw [jsReplace_literal ad repl s hr2]
  exact literalReplaceAll_clean ad repl hr1 s

theorem sanitizeKey_out_clean (p : Policy) (k : List Char)
    (hr1 : ∀ c ∈ p.replaceWith, isForbidden p.allowDots c = false)
    (hr2 : '$' ∉ p.replaceWith) :
    containsForbidden p.allowDots (sanitizeKey p k) = false := by
  unfold sanitizeKey
  cases hb : containsForbidden p.allowDots k with
  | false =>
    rw [if_neg Bool.false_ne_true]
    exact hb
  | true =>
    rw [if_pos rfl]
    exact jsReplace_clean p.allowDots p.replaceWith k hr1 hr2

theorem sanitizeStringValue_out_clean (p : Policy) (s : List Char) (flag : Bool)
    (hd : p.dryRun = false)
    (hr1 : ∀ c ∈ p.replaceWith, isForbidden p.allowDots c = false)
    (hr2 : '$' ∉ p.replaceWith) :
    containsForbidden p.allowDots (sanitizeStringValue p s flag).1 = false := by
  unfold sanitizeStringValue
  cases hb : containsForbidden p.allowDots s with
  | false =>
    rw [if_neg Bool.false_ne_true]
    exact hb
  | true =>
    rw [if_pos rfl, hd, if_neg Bool.false_ne_true]
    exact jsReplace_clean p.allowDots p.replaceWith s hr1 hr2

theorem map_fst_overwrite {α : Type} (l : List (List Char × α)) (k : List Char)
    (v : α) :
    (l.map fun e => if e.1 == k then (k, v) else e).map Prod.fst
      = l.map Prod.fst := by
  induction l with
  | nil => rfl
  | cons e rest ih =>
    cases hb : (e.1 == k) with
    | true =>
      have hk : e.1 = k := eq_of_beq hb
      simp only [List.map_cons, hb, if_true, ih]
      rw [hk]
    | false => simp only [List.map_cons, hb, Bool.false_eq_true, if_false, ih]

theorem cleanEntries_append (ad : Bool) (l1 l2 : List (List Char × Value)) :
    cleanEntries ad (l1 ++ l2) = (cleanEntries ad l1 && cleanEntries ad l2) := by
  induction l1 with
  | nil => simp [cleanEntries]
  | cons e rest ih =>
    obtain ⟨k0, v0⟩ := e
    rw [List.cons_append, cleanEntries, cleanEntries, ih]
    simp [Bool.and_assoc]

theorem nodupEntries_append (l1 l2 : List (List Char × Value)) :
    nodupEntries (l1 ++ l2) = (nodupEntries l1 && nodupEntries l2) := by
  induction l1 with
  | nil => simp [nodupEntries]
  | cons e rest ih =>
    obtain ⟨k0, v0⟩ := e
    rw [List.cons_append, nodupEntries, nodupEntries, ih]
    simp [Bool.and_assoc]

theorem cleanEntries_map_overwrite (ad : Bool) (l : List (List Char × Value))
    (k : List Char) (v : Value) (hl : cleanEntries ad l = true)
    (hk : containsForbidden ad k = false) (hv : cleanV ad v = true) :
    cleanEntries ad (l.map fun e => if e.1 == k then (k, v) else e) = true := by
  induction l with
  | nil => rfl
  | cons e rest ih =>
    obtain ⟨k0, v0⟩ := e
    obtain ⟨h1, h2, h3⟩ := (cleanEntries_cons_iff ad k0 v0 rest).mp hl
    rw [List.map_cons]
    cases hb : (k0 == k) with
    | true =>
      simp only [hb, if_true]
      exact (cleanEntries_cons_iff ad k v _).mpr ⟨hk, hv, ih h3⟩
    | false =>
      simp only [hb, Bool.false_eq_true, if_false]
      exact (cleanEntries_cons_iff ad k0 v0 _).mpr ⟨h1, h2, ih h3⟩

theorem nodupEntries_map_overwrite (l : List (List Char × Value))
    (k : List Char) (v : Value) (hl : nodupEntries l = true)
    (hv : nodupKeysV v = true) :
    nodupEntries (l.map fun e => if e.1 == k then (k, v) else e) = true := by
  induction l with
  | nil => rfl
  | cons e rest ih =>
    obtain ⟨k0, v0⟩ := e
    obtain ⟨h1, h2⟩ := (nodupEntries_cons_iff k0 v0 rest).mp hl
    rw [List.map_cons]
    cases hb : (k0 == k) with
    | true =>
      simp only [hb, if_true]
      exact (nodupEntries_cons_iff k v _).mpr ⟨hv, ih h2⟩
    | false =>
      simp only [hb, Bool.false_eq_true, if_false]
      exact (nodupEntries_cons_iff k0 v0 _).mpr ⟨h1, ih h2⟩

theorem keysNodupB_append_singleton (l : List (List Char)) (k : List Char)
    (h1 : keysNodupB l = true) (h2 : (l.any fun x => x == k) = false) :
    keysNodupB (l ++ [k]) = true := by
  induction l with
  | nil => rfl
  | cons a rest ih =>
    obtain ⟨ha, hrest⟩ := (keysNodupB_cons_iff a rest).mp h1
    rw [List.any_cons, Bool.or_eq_false_iff] at h2
    rw [List.cons_append]
    apply (keysNodupB_cons_iff a (rest ++ [k])).mpr
    refine ⟨?_, ih hrest h2.2⟩
    rw [List.any_append, Bool.or_eq_false_iff]
    refine ⟨ha, ?_⟩
    have hne : ¬(k = a) := by
      intro hka
      rw [beq_eq_false_iff_ne] at h2
      exact h2.1 hka.symm
    simp [hne]

theorem jsInsert_out_invariants (ad : Bool) (acc : List (List Char × Value))
    (k : List Char) (v : Value)
    (ha1 : cleanEntries ad acc = true) (ha2 : nodupEntries acc = true)
    (ha3 : keysNodupB (acc.map Prod.fst) = true)
    (hk : containsForbidden ad k = false) (hv1 : cleanV ad v = true)
    (hv2 : nodupKeysV v = true) :
    cleanEntries ad (jsInsert acc k v) = true
    ∧ nodupEntries (jsInsert acc k v) = true
    ∧ keysNodupB ((jsInsert acc k v).map Prod.fst) = true := by
  unfold jsInsert
  cases hb : acc.any (fun e => e.1 == k) with
  | true =>
    rw [if_pos rfl]
    refine ⟨cleanEntries_map_overwrite ad acc k v ha1 hk hv1,
      nodupEntries_map_overwrite acc k v ha2 hv2, ?_⟩
    rw [map_fst_overwrite]
    exact ha3
  | false =>
    rw [if_neg Bool.false_ne_true]
    refine ⟨?_, ?_, ?_⟩
    · rw [cleanEntries_append, ha1, Bool.true_and]
      exact (cleanEntries_cons_iff ad k v []).mpr ⟨hk, hv1, rfl⟩
    · rw [nodupEntries_append, ha2, Bool.true_and]
      exact (nodupEntries_cons_iff k v []).mpr ⟨hv2, rfl⟩
    · rw [List.map_append]
      apply keysNodupB_append_singleton _ _ ha3
      have := (any_fst_beq_false_iff acc k).mp hb
      apply any_eq_false_of_all
      intro x hx
      obtain ⟨e, he, hex⟩ := List.mem_map.mp hx
      rw [beq_eq_false_iff_ne]
      exact hex ▸ this e he

theorem recSanitizeItems_cons_fst (p : Policy) (item : Value) (rest : List Value)
    (flag : Bool) :
    (recSanitizeItems p (item :: rest) flag).1
      = (valueStep p item flag).1
          :: (recSanitizeItems p rest (valueStep p item flag).2).1 :=
  rfl

mutual

theorem valueStep_out_clean (p : Policy) (val : Value) (flag : Bool)
    (hd : p.dryRun = false)
    (hr1 : ∀ c ∈ p.replaceWith, isForbidden p.allowDots c = false)
    (hr2 : '$' ∉ p.replaceWith) :
    cleanV p.allowDots (valueStep p val flag).1 = true
    ∧ nodupKeysV (valueStep p val flag).1 = true := by
  match val with
  | Value.obj l =>
    have h := recSanEntriesOutClean p l [] flag hd hr1 hr2 rfl rfl rfl
    constructor
    · show cleanV p.allowDots
        (Value.obj (recSanitizeEntries p l [] flag).1) = true
      rw [cleanV]
      exact h.1
    · show nodupKeysV
        (Value.obj (recSanitizeEntries p l [] flag).1) = true
      rw [nodupKeysV, h.2.2, h.2.1]
      rfl
  | Value.arr l =>
    have h := recSanItemsOutClean p l flag hd hr1 hr2
    constructor
    · show cleanV p.allowDots (Value.arr (recSanitizeItems p l flag).1) = true
      rw [cleanV]
      exact h.1
    · show nodupKeysV (Value.arr (recSanitizeItems p l flag).1) = true
      rw [nodupKeysV]
      exact h.2
  | Value.str s =>
    constructor
    · show cleanV p.allowDots (Value.str (sanitizeStringValue p s flag).1) = true
      rw [cleanV, sanitizeStringValue_out_clean p s flag hd hr1 hr2]
      rfl
    · rfl
  | Value.num n => exact ⟨rfl, rfl⟩
  | Value.bool b => exact ⟨rfl, rfl⟩
  | Value.null => exact ⟨rfl, rfl⟩
  | Value.other t => exact ⟨rfl, rfl⟩

theorem recSanEntriesOutClean (p : Policy)
    (entries acc : List (List Char × Value)) (flag : Bool)
    (hd : p.dryRun = false)
    (hr1 : ∀ c ∈ p.replaceWith, isForbidden p.allowDots c = false)
    (hr2 : '$' ∉ p.replaceWith)
    (ha1 : cleanEntries p.allowDots acc = true) (ha2 : nodupEntries acc = true)
    (ha3 : keysNodupB (acc.map Prod.fst) = true) :
    cleanEntries p.allowDots (recSanitizeEntries p entries acc flag).1 = true
    ∧ nodupEntries (recSanitizeEntries p entries acc flag).1 = true
    ∧ keysNodupB ((recSanitizeEntries p entries acc flag).1.map Prod.fst)
        = true := by
  match entries with
  | [] => exact ⟨ha1, ha2, ha3⟩
  | (k, val) :: rest =>
    rw [recSanitizeEntries_cons]
    have hstep := valueStep_out_clean p val
      (if containsForbidden p.allowDots k && !p.dryRun then true else flag)
      hd hr1 hr2
    have hkey := sanitizeKey_out_clean p k hr1 hr2
    have hins := jsInsert_out_invariants p.allowDots acc (sanitizeKey p k) _
      ha1 ha2 ha3 hkey hstep.1 hstep.2
    exact recSanEntriesOutClean p rest _ _ hd hr1 hr2 hins.1 hins.2.1 hins.2.2

theorem recSanItemsOutClean (p : Policy) (items : List Value) (flag : Bool)
    (hd : p.dryRun = false)
    (hr1 : ∀ c ∈ p.replaceWith, isForbidden p.allowDots c = false)
    (hr2 : '$' ∉ p.replaceWith) :
    cleanItems p.allowDots (recSanitizeItems p items flag).1 = true
    ∧ nodupItems (recSanitizeItems p items flag).1 = true := by
  match items with
  | [] => exact ⟨rfl, rfl⟩
  | item :: rest =>
    rw [recSanitizeItems_cons_fst]
    have hstep := valueStep_out_clean p item flag hd hr1 hr2
    have ih := recSanItemsOutClean p rest (valueStep p item flag).2 hd hr1 hr2
    constructor
    · rw [cleanItems, hstep.1, ih.1]
      rfl
    · rw [nodupItems, hstep.2, ih.2]
      rfl

end

/-- C5: under the default policy (replacement `"_"`, `allowDots = false`,
`dryRun = false`) sanitizing is idempotent: re-sanitizing
already-sanitized data is a no-op, because the default replacement
character is not itself a forbidden character (so the first pass produces
a tree without forbidden characters, which the second pass leaves
untouched). -/
theorem c5_idempotent_default (v : Value) :
    sanitize defaultPolicy (sanitize defaultPolicy v)
      = sanitize defaultPolicy v := by
  have hr1 : ∀ c ∈ defaultPolicy.replaceWith,
      isForbidden defaultPolicy.allowDots c = false := by decide
  have hr2 : '$' ∉ defaultPolicy.replaceWith := by decide
  have hd : defaultPolicy.dryRun = false := rfl
  match v with
  | Value.str s =>
    cases hc : containsForbidden defaultPolicy.allowDots s with
    | true =>
      have h1 : sanitize defaultPolicy (Value.str s)
          = Value.str (jsReplace defaultPolicy.allowDots
              defaultPolicy.replaceWith s) := by
        unfold sanitize
        rw [_sanitize_str, if_pos hc]
        rfl
      have hclean := jsReplace_clean defaultPolicy.allowDots
        defaultPolicy.replaceWith s hr1 hr2
      rw [h1]
      unfold sanitize
      rw [_sanitize_str, if_neg (by simp [hclean])]
    | false =>
      have h1 : sanitize defaultPolicy (Value.str s) = Value.str s := by
        unfold sanitize
        rw [_sanitize_str, if_neg (by simp [hc])]
      rw [h1, h1]
  | Value.obj entries =>
    have hout := recSanEntriesOutClean defaultPolicy entries [] false
      hd hr1 hr2 rfl rfl rfl
    have h1 : sanitize defaultPolicy (Value.obj entries)
        = Value.obj (recSanitizeEntries defaultPolicy entries [] false).1 := rfl
    rw [h1]
    have hid := _sanitize_clean_id defaultPolicy
      (Value.obj (recSanitizeEntries defaultPolicy entries [] false).1)
      (by rw [cleanV]; exact hout.1)
      (by rw [nodupKeysV, hout.2.2, hout.2.1]; rfl)
    show (_sanitize defaultPolicy
      (Value.obj (recSanitizeEntries defaultPolicy entries [] false).1)).target
        = Value.obj (recSanitizeEntries defaultPolicy entries [] false).1
    rw [hid]
  | Value.arr elems =>
    have hout := recSanItemsOutClean defaultPolicy elems false hd hr1 hr2
    have h1 : sanitize defaultPolicy (Value.arr elems)
        = Value.arr (recSanitizeItems defaultPolicy elems false).1 := rfl
    rw [h1]
    have hid := _sanitize_clean_id defaultPolicy
      (Value.arr (recSanitizeItems defaultPolicy elems false).1)
      (by rw [cleanV]; exact hout.1)
      (by rw [nodupKeysV]; exact hout.2)
    show (_sanitize defaultPolicy
      (Value.arr (recSanitizeItems defaultPolicy elems false).1)).target
        = Value.arr (recSanitizeItems defaultPolicy elems false).1
    rw [hid]
  | Value.num n => rfl
  | Value.bool b => rfl
  | Value.null => rfl
  | Value.other t => rfl

theorem _sanitize_obj (p : Policy) (entries : List (List Char × Value)) :
    _sanitize p (Value.obj entries)
      = { isSanitized := (recSanitize p (Value.obj entries) false).2
          target := if p.dryRun then Value.obj entries
            else (recSanitize p (Value.obj entries) false).1 } :=
  rfl

theorem _sanitize_arr (p : Policy) (elems : List Value) :
    _sanitize p (Value.arr elems)
      = { isSanitized := (recSanitize p (Value.arr elems) false).2
          target := if p.dryRun then Value.arr elems
            else (recSanitize p (Value.arr elems) false).1 } :=
  rfl

theorem recSanitizeEntries_nil (p : Policy) (acc : List (List Char × Value))
    (flag : Bool) : recSanitizeEntries p [] acc flag = (acc, flag) :=
  rfl

theorem jsInsert_nil {α : Type} (k : List Char) (v : α) :
    jsInsert ([] : List (List Char × α)) k v = [(k, v)] :=
  rfl

theorem jsInsert_singleton_self {α : Type} (k : List Char) (w v2 : α) :
    jsInsert [(k, w)] k v2 = [(k, v2)] := by
  simp [jsInsert]

theorem recSanitizeItems_map (p : Policy) (items : List Value) (flag : Bool) :
    (recSanitizeItems p items flag).1 = items.map (elemSan p) := by
  induction items generalizing flag with
  | nil => rfl
  | cons item rest ih =>
    rw [recSanitizeItems_cons_fst, List.map_cons,
      valueStep_fst p item flag false, ih]
    rfl

theorem recSanitizeItems_length (p : Policy) (items : List Value) (flag : Bool) :
    (recSanitizeItems p items flag).1.length = items.length := by
  rw [recSanitizeItems_map, List.length_map]

theorem recSanitizeEntries_length_le (p : Policy)
    (entries : List (List Char × Value)) :
    ∀ acc flag,
      (recSanitizeEntries p entries acc flag).1.length
        ≤ acc.length + entries.length := by
  induction entries with
  | nil =>
    intro acc flag
    simp [recSanitizeEntries_nil]
  | cons e rest ih =>
    intro acc flag
    obtain ⟨k, val⟩ := e
    rw [recSanitizeEntries_cons]
    have h1 := ih (jsInsert acc (sanitizeKey p k)
      (valueStep p val
        (if containsForbidden p.allowDots k && !p.dryRun then true else flag)).1)
      (valueStep p val
        (if containsForbidden p.allowDots k && !p.dryRun then true else flag)).2
    have h2 := jsInsert_length_le acc (sanitizeKey p k)
      (valueStep p val
        (if containsForbidden p.allowDots k && !p.dryRun then true else flag)).1
    simp only [List.length_cons]
    omega

theorem recSanitizeEntries_length_eq (p : Policy)
    (entries : List (List Char × Value)) :
    ∀ acc flag,
      keysNodupB (entries.map fun e => sanitizeKey p e.1) = true →
      (∀ e ∈ entries, (acc.any fun e2 => e2.1 == sanitizeKey p e.1) = false) →
      (recSanitizeEntries p entries acc flag).1.length
        = acc.length + entries.length := by
  induction entries with
  | nil =>
    intro acc flag _ _
    simp [recSanitizeEntries_nil]
  | cons e rest ih =>
    intro acc flag hnd hdisj
    obtain ⟨k, val⟩ := e
    rw [recSanitizeEntries_cons]
    have hmem : (acc.any fun e2 => e2.1 == sanitizeKey p k) = false :=
      hdisj (k, val) (List.mem_cons_self _ _)
    rw [jsInsert_of_not_mem _ _ _ hmem]
    rw [List.map_cons] at hnd
    obtain ⟨hhead, htail⟩ := (keysNodupB_cons_iff _ _).mp hnd
    have hdisj2 : ∀ e ∈ rest,
        ((acc ++ [(sanitizeKey p k,
            (valueStep p val
              (if containsForbidden p.allowDots k && !p.dryRun then true
                else flag)).1)]).any
          fun e2 => e2.1 == sanitizeKey p e.1) = false := by
      intro e he
      rw [List.any_append, Bool.or_eq_false_iff]
      refine ⟨hdisj e (List.mem_cons_of_mem _ he), ?_⟩
      have hne : sanitizeKey p e.1 ≠ sanitizeKey p k := by
        have hall := (any_beq_false_iff
          (rest.map fun e => sanitizeKey p e.1) (sanitizeKey p k)).mp hhead
        exact hall (sanitizeKey p e.1)
          (List.mem_map_of_mem (fun e => sanitizeKey p e.1) he)
      have hbe : (sanitizeKey p k == sanitizeKey p e.1) = false := by
        rw [beq_eq_false_iff_ne]
        exact fun h => hne h.symm
      simp [hbe]
    have hres := ih (acc ++ [(sanitizeKey p k,
        (valueStep p val
          (if containsForbidden p.allowDots k && !p.dryRun then true
            else flag)).1)])
      (valueStep p val
        (if containsForbidden p.allowDots k && !p.dryRun then true else flag)).2
      htail hdisj2
    simp only [List.length_append, List.length_cons, List.length_nil] at hres ⊢
    omega

/-- C6: for every input tree and policy, the sanitized output keeps the
container shape of the input: an array stays an array of exactly the same
length, with element `i` the sanitization of input element `i` (order
preserved); a mapping stays a mapping whose entry list can only shrink
(`≤`), and does not shrink when the sanitized keys are pairwise distinct
— shrinking therefore requires two distinct keys with the same sanitized
key. -/
theorem c6_structure_preservation (p : Policy) (a : List Value)
    (l : List (List Char × Value)) :
    sanitize p (Value.arr a) = Value.arr (arrElemsOf (sanitize p (Value.arr a)))
    ∧ (arrElemsOf (sanitize p (Value.arr a))).length = a.length
    ∧ (p.dryRun = false →
        arrElemsOf (sanitize p (Value.arr a)) = a.map (elemSan p))
    ∧ sanitize p (Value.obj l)
        = Value.obj (objEntriesOf (sanitize p (Value.obj l)))
    ∧ (objEntriesOf (sanitize p (Value.obj l))).length ≤ l.length
    ∧ (keysNodupB (l.map fun e => sanitizeKey p e.1) = true →
        (objEntriesOf (sanitize p (Value.obj l))).length = l.length) := by
  cases hdry : p.dryRun with
  | true =>
    have ha : sanitize p (Value.arr a) = Value.arr a := by
      unfold sanitize
      rw [_sanitize_arr, hdry, if_pos rfl]
    have ho : sanitize p (Value.obj l) = Value.obj l := by
      unfold sanitize
      rw [_sanitize_obj, hdry, if_pos rfl]
    rw [ha, ho]
    refine ⟨rfl, rfl, ?_, rfl, Nat.le_refl _, fun _ => rfl⟩
    intro h
    exact absurd h (by decide)
  | false =>
    have ha : sanitize p (Value.arr a)
        = Value.arr (recSanitizeItems p a false).1 := by
      unfold sanitize
      rw [_sanitize_arr, hdry, if_neg Bool.false_ne_true]
      rfl
    have ho : sanitize p (Value.obj l)
        = Value.obj (recSanitizeEntries p l [] false).1 := by
      unfold sanitize
      rw [_sanitize_obj, hdry, if_neg Bool.false_ne_true]
      rfl
    rw [ha, ho]
    refine ⟨rfl, ?_, fun _ => ?_, rfl, ?_, fun hnd => ?_⟩
    · show (recSanitizeItems p a false).1.length = a.length
      exact recSanitizeItems_length p a false
    · show (recSanitizeItems p a false).1 = a.map (elemSan p)
      exact recSanitizeItems_map p a false
    · show (recSanitizeEntries p l [] false).1.length ≤ l.length
      have := recSanitizeEntries_length_le p l [] false
      simpa using this
    · show (recSanitizeEntries p l [] false).1.length = l.length
      have := recSanitizeEntries_length_eq p l [] false hnd (fun e _ => rfl)
      simpa using this

/-- C6 witness: an array keeps its element (sanitized), and an object
with two distinct sanitized keys keeps both entries. -/
theorem c6_structure_preservation_witness :
    arrElemsOf (sanitize defaultPolicy (Value.arr [Value.str ("a$b".toList)]))
      = [Value.str ("a_b".toList)]
    ∧ (objEntriesOf (sanitize defaultPolicy
        (Value.obj [(("a.b".toList), Value.num 1),
          (("$x".toList), Value.num 2)]))).length = 2 :=
  ⟨(c6_structure_preservation defaultPolicy [Value.str ("a$b".toList)]
      [(("a.b".toList), Value.num 1), (("$x".toList), Value.num 2)]).2.2.1 rfl,
    (c6_structure_preservation defaultPolicy [Value.str ("a$b".toList)]
      [(("a.b".toList), Value.num 1), (("$x".toList), Value.num 2)]).2.2.2.2.2
      (by decide)⟩

theorem orElseO_none {α : Type} (o : Option α) : orElseO o none = o := by
  cases o <;> rfl

theorem lastEntrySan_cons (p : Policy) (k : List Char) (v : Value)
    (rest : List (List Char × Value)) (s : List Char) :
    lastEntrySan p ((k, v) :: rest) s
      = orElseO (lastEntrySan p rest s)
          (if sanitizeKey p k == s then some (elemSan p v) else none) :=
  rfl

theorem lookupKey_append {α : Type} (l1 l2 : List (List Char × α))
    (s : List Char) :
    lookupKey (l1 ++ l2) s = orElseO (lookupKey l1 s) (lookupKey l2 s) := by
  induction l1 with
  | nil => rfl
  | cons e rest ih =>
    cases hes : (e.1 == s) with
    | true => simp [lookupKey, hes, orElseO]
    | false => simp [lookupKey, hes, ih]

theorem lookupKey_none_of_not_mem {α : Type} (l : List (List Char × α))
    (k : List Char) (h : l.any (fun e => e.1 == k) = false) :
    lookupKey l k = none := by
  induction l with
  | nil => rfl
  | cons e rest ih =>
    rw [List.any_cons, Bool.or_eq_false_iff] at h
    simp [lookupKey, h.1, ih h.2]

theorem lookupKey_overwrite_ne {α : Type} (l : List (List Char × α))
    (k s : List Char) (v : α) (hks : (k == s) = false) :
    lookupKey (l.map fun e => if e.1 == k then (k, v) else e) s
      = lookupKey l s := by
  induction l with
  | nil => rfl
  | cons e rest ih =>
    cases he : (e.1 == k) with
    | true =>
      have hek : e.1 = k := eq_of_beq he
      rw [List.map_cons, if_pos he]
      simp only [lookupKey]
      rw [hek]
      rw [if_neg (by simp [hks]), if_neg (by simp [hks])]
      exact ih
    | false =>
      rw [List.map_cons, if_neg (by simp [he])]
      simp only [lookupKey]
      cases hes : (e.1 == s) with
      | true => rfl
      | false =>
        rw [if_neg Bool.false_ne_true, if_neg Bool.false_ne_true]
        exact ih

theorem lookupKey_overwrite_self {α : Type} (l : List (List Char × α))
    (k : List Char) (v : α) (h : l.any (fun e => e.1 == k) = true) :
    lookupKey (l.map fun e => if e.1 == k then (k, v) else e) k = some v := by
  induction l with
  | nil => simp at h
  | cons e rest ih =>
    cases he : (e.1 == k) with
    | true =>
      rw [List.map_cons, if_pos he]
      simp [lookupKey]
    | false =>
      rw [List.any_cons, he, Bool.false_or] at h
      rw [List.map_cons, if_neg (by simp [he])]
      simp only [lookupKey]
      rw [if_neg (by simp [he])]
      exact ih h

theorem lookupKey_jsInsert {α : Type} (acc : List (List Char × α))
    (k s : List Char) (v : α) :
    lookupKey (jsInsert acc k v) s
      = if k == s then some v else lookupKey acc s := by
  unfold jsInsert
  by_cases hmem : acc.any (fun e => e.1 == k) = true
  · rw [if_pos hmem]
    cases hks : (k == s) with
    | true =>
      have : k = s := eq_of_beq hks
      subst this
      rw [if_pos rfl]
      exact lookupKey_overwrite_self acc k v hmem
    | false =>
      rw [if_neg (by simp [hks])]
      exact lookupKey_overwrite_ne acc k s v hks
  · rw [if_neg hmem]
    have hmem2 : acc.any (fun e => e.1 == k) = false := by
      cases hx : acc.any (fun e => e.1 == k)
      · rfl
      · exact absurd hx hmem
    cases hks : (k == s) with
    | true =>
      have : k = s := eq_of_beq hks
      subst this
      rw [if_pos rfl, lookupKey_append,
        lookupKey_none_of_not_mem acc k hmem2]
      simp [lookupKey, orElseO]
    | false =>
      rw [if_neg (by simp [hks]), lookupKey_append]
      have hone : lookupKey [(k, v)] s = none := by simp [lookupKey, hks]
      rw [hone, orElseO_none]

theorem recSanitizeEntries_lookup (p : Policy)
    (l : List (List Char × Value)) :
    ∀ acc flag s,
      lookupKey (recSanitizeEntries p l acc flag).1 s
        = orElseO (lastEntrySan p l s) (lookupKey acc s) := by
  induction l with
  | nil => intro acc flag s; rfl
  | cons e rest ih =>
    intro acc flag s
    obtain ⟨k, v⟩ := e
    rw [recSanitizeEntries_cons, ih, lookupKey_jsInsert,
      valueStep_fst p v _ false, lastEntrySan_cons]
    cases hlast : lastEntrySan p rest s with
    | some w => rfl
    | none =>
      cases hks : (sanitizeKey p k == s) with
      | true => simp [orElseO, hks, elemSan]
      | false => simp [orElseO, hks]

/-- C7: last-write-wins in every mapping — for every entry list and every
key `s`, the sanitized output's value at `s` is the sanitized value of
the last input entry whose key sanitizes to `s` (absent when no entry
maps to `s`), so whenever two distinct keys collide the later-processed
entry overwrites the earlier one; in particular a two-entry collision
keeps a single entry carrying the later value. -/
theorem c7_last_write_wins (p : Policy) (l : List (List Char × Value))
    (s k1 k2 : List Char) (v1 v2 : Value) (hd : p.dryRun = false)
    (hc : sanitizeKey p k1 = sanitizeKey p k2) :
    lookupKey (objEntriesOf (sanitize p (Value.obj l))) s = lastEntrySan p l s
    ∧ sanitize p (Value.obj [(k1, v1), (k2, v2)])
        = Value.obj [(sanitizeKey p k1, elemSan p v2)] := by
  constructor
  · have ho : sanitize p (Value.obj l)
        = Value.obj (recSanitizeEntries p l [] false).1 := by
      unfold sanitize
      rw [_sanitize_obj, hd, if_neg Bool.false_ne_true]
      rfl
    rw [ho]
    show lookupKey (recSanitizeEntries p l [] false).1 s = lastEntrySan p l s
    rw [recSanitizeEntries_lookup]
    show orElseO (lastEntrySan p l s) none = lastEntrySan p l s
    exact orElseO_none _
  · have key : (recSanitizeEntries p [(k1, v1), (k2, v2)] [] false).1
        = [(sanitizeKey p k1, elemSan p v2)] := by
      rw [recSanitizeEntries_cons, jsInsert_nil, recSanitizeEntries_cons,
        recSanitizeEntries_nil]
      show jsInsert [(sanitizeKey p k1, _)] (sanitizeKey p k2) _ = _
      rw [← hc, jsInsert_singleton_self]
      rw [valueStep_fst p v2 _ false]
      rfl
    unfold sanitize
    rw [_sanitize_obj, hd, if_neg Bool.false_ne_true]
    show Value.obj (recSanitizeEntries p [(k1, v1), (k2, v2)] [] false).1 = _
    rw [key]

/-- C7 witness: in `{x: 0, "a.b": 1, "a$b": 2}` with empty replacement
both dirty keys collapse to `"ab"` and the later entry's value `2` is
the one read back, while the untouched surrounding entry survives; and
the spec's two-entry scenario
`sanitize({"a.b": 1, "a$b": 2}, {replaceWith: ""})` is `{"ab": 2}`. -/
theorem c7_last_write_wins_witness :
    lookupKey (objEntriesOf (sanitize ⟨[], false, false⟩
        (Value.obj [(("x".toList), Value.num 0), (("a.b".toList), Value.num 1),
          (("a$b".toList), Value.num 2)]))) ("ab".toList)
      = some (Value.num 2)
    ∧ lookupKey (objEntriesOf (sanitize ⟨[], false, false⟩
        (Value.obj [(("x".toList), Value.num 0), (("a.b".toList), Value.num 1),
          (("a$b".toList), Value.num 2)]))) ("x".toList)
      = some (Value.num 0)
    ∧ sanitize ⟨[], false, false⟩
        (Value.obj [(("a.b".toList), Value.num 1), (("a$b".toList), Value.num 2)])
      = Value.obj [(("ab".toList), Value.num 2)] :=
  ⟨(c7_last_write_wins ⟨[], false, false⟩
      [(("x".toList), Value.num 0), (("a.b".toList), Value.num 1),
        (("a$b".toList), Value.num 2)] ("ab".toList) ("a.b".toList)
      ("a$b".toList) (Value.num 1) (Value.num 2) rfl rfl).1,
    (c7_last_write_wins ⟨[], false, false⟩
      [(("x".toList), Value.num 0), (("a.b".toList), Value.num 1),
        (("a$b".toList), Value.num 2)] ("x".toList) ("a.b".toList)
      ("a$b".toList) (Value.num 1) (Value.num 2) rfl rfl).1,
    (c7_last_write_wins ⟨[], false, false⟩
      [(("x".toList), Value.num 0), (("a.b".toList), Value.num 1),
        (("a$b".toList), Value.num 2)] ("ab".toList) ("a.b".toList)
      ("a$b".toList) (Value.num 1) (Value.num 2) rfl rfl).2⟩

/-- C8: when `allowDots` is true only `$` is forbidden — any tree without
`$` (dots freely allowed) passes through `_sanitize` unchanged with the
flag `false`; `$` is still replaced (the `{"a": {"$gt": 3}}` scenario);
and the two regex character classes are exactly `{$}` (`allowDots`) and
`{$, .}` (otherwise). -/
theorem c8_allow_dots (p : Policy) (v : Value) (h1 : p.allowDots = true)
    (h2 : cleanV true v = true) (h3 : nodupKeysV v = true) :
    _sanitize p v = ⟨false, v⟩
    ∧ sanitize ⟨['_'], false, true⟩
        (Value.obj [(("a".toList), Value.obj [(("$gt".toList), Value.num 3)])])
        = Value.obj [(("a".toList), Value.obj [(("_gt".toList), Value.num 3)])]
    ∧ (∀ c : Char, (isForbidden true c = true ↔ c = '$')
        ∧ (isForbidden false c = true ↔ (c = '$' ∨ c = '.'))) := by
  refine ⟨?_, rfl, ?_⟩
  · exact _sanitize_clean_id p v (by rw [h1]; exact h2) h3
  · intro c
    constructor <;> simp [isForbidden]

/-- C8 witness: `sanitize("a.b", {allowDots: true})` is `"a.b"`,
unchanged with the flag down. -/
theorem c8_allow_dots_witness :
    _sanitize ⟨['_'], false, true⟩ (Value.str ("a.b".toList))
      = ⟨false, Value.str ("a.b".toList)⟩ :=
  (c8_allow_dots ⟨['_'], false, true⟩ (Value.str ("a.b".toList)) rfl
    (by decide) (by decide)).1

/-- C2: for every input value `T` and every policy with `dryRun = true`,
the value returned by the engine (`sanitize`, i.e. the `target` of
`_sanitize`) is exactly the input `T` (src lines 83, 187 return the
original reference under `dryRun`). -/
theorem c2_dry_run_identity (p : Policy) (v : Value) (h : p.dryRun = true) :
    sanitize p v = v := by
  match v with
  | Value.str s =>
    by_cases hc : containsForbidden p.allowDots s = true <;>
      simp [sanitize, _sanitize, hc, h]
  | Value.obj entries => simp [sanitize, _sanitize, h]
  | Value.arr elems => simp [sanitize, _sanitize, h]
  | Value.num n => rfl
  | Value.bool b => rfl
  | Value.null => rfl
  | Value.other t => rfl

/-- C2 witness: a dry run on a dirty nested object returns it verbatim. -/
theorem c2_dry_run_identity_witness :
    sanitize ⟨['_'], true, false⟩
        (Value.obj [(("$a".toList), Value.str ("x.y".toList))])
      = Value.obj [(("$a".toList), Value.str ("x.y".toList))] :=
  c2_dry_run_identity ⟨['_'], true, false⟩
    (Value.obj [(("$a".toList), Value.str ("x.y".toList))]) rfl

/-- C1: the claim states that `isSanitized` (hence `has`) is true iff a
forbidden character occurs in some key or string value, regardless of
`dryRun`.  The code violates this: under `dryRun` the flag updates for
keys and for nested string values are skipped (src lines 134, 146-148,
171-172), so `has` — which forces `dryRun: true` — returns `false` on
`{"$where": "1==1"}` even though `$` occurs in a key, while the same
input under `dryRun = false` sets the flag.  This contradicts the code's
own documentation of `has` ("returns true if the value contains NoSQL
injection characters"). -/
theorem c1_dry_run_detection_bug :
    has (Value.obj [(("$where".toList), Value.str ("1==1".toList))]) = false
    ∧ (_sanitize defaultPolicy
        (Value.obj [(("$where".toList), Value.str ("1==1".toList))])).isSanitized
        = true
    ∧ containsForbidden false ("$where".toList) = true :=
  ⟨rfl, rfl, rfl⟩

/-- C4 counterexample: the replacement string is NOT inserted literally —
JavaScript `replace` interprets `$`-patterns in it.  With
`replaceWith = "$$"` on `"a$b"` the code produces `"a$b"` (the pattern
`$$` stands for one dollar sign), while literal insertion would produce
`"a$$b"`. -/
theorem c4_counterexample :
    (_sanitize ⟨("$$".toList), false, false⟩ (Value.str ("a$b".toList))).target
        = Value.str ("a$b".toList)
    ∧ literalReplaceAll false ("$$".toList) ("a$b".toList) = ("a$$b".toList)
    ∧ ("a$b".toList) ≠ ("a$$b".toList) :=
  ⟨rfl, rfl, by decide⟩

/-- C4 (amended): for every string `s` and policy with `dryRun = false`
whose replacement contains no `$` character, sanitizing replaces every
occurrence of every forbidden character with the replacement inserted
literally (all occurrences, not just the first), and the flag is raised
exactly when `s` contains a forbidden character; in particular a string
without forbidden characters is returned unchanged with the flag
`false`. -/
theorem c4_literal_replacement (p : Policy) (s : List Char)
    (hd : p.dryRun = false) (hr : '$' ∉ p.replaceWith) :
    _sanitize p (Value.str s)
      = ⟨containsForbidden p.allowDots s,
          Value.str (literalReplaceAll p.allowDots p.replaceWith s)⟩ := by
  by_cases hc : containsForbidden p.allowDots s = true
  · simp [_sanitize, hc, hd, jsReplace_literal p.allowDots p.replaceWith s hr]
  · have hc' : containsForbidden p.allowDots s = false :=
      Bool.not_eq_true _ ▸ eq_false_of_ne_true hc
    simp [_sanitize, hc', literalReplaceAll_of_clean p.allowDots p.replaceWith s hc']

/-- C4 witness: under the default policy every `.` and `$` of `"a.$b"`
becomes `_`, with the flag raised. -/
theorem c4_literal_replacement_witness :
    _sanitize defaultPolicy (Value.str ("a.$b".toList))
      = ⟨true, Value.str ("a__b".toList)⟩ :=
  c4_literal_replacement defaultPolicy ("a.$b".toList) rfl (by decide)

/-- C9: values that are neither strings nor plain objects nor arrays
(functions, class instances, ... — modelled by `Value.other`) are treated
as opaque scalars: passed through unchanged with the flag untouched, both
at the root (src lines 97-99) and nested inside objects or arrays (the
final `else` branches, src lines 155-157 and 177-179), and no error is
possible (the functions are total). -/
theorem c9_opaque_passthrough (p : Policy) (n : Nat) (flag : Bool)
    (k : List Char) (hd : p.dryRun = false) :
    _sanitize p (Value.other n) = ⟨false, Value.other n⟩
    ∧ recSanitize p (Value.other n) flag = (Value.other n, flag)
    ∧ valueStep p (Value.other n) flag = (Value.other n, flag)
    ∧ sanitize p (Value.obj [(k, Value.other n)])
        = Value.obj [(sanitizeKey p k, Value.other n)]
    ∧ sanitize p (Value.arr [Value.other n]) = Value.arr [Value.other n] := by
  refine ⟨rfl, rfl, rfl, ?_, ?_⟩
  · simp [sanitize, _sanitize, hd, cloneDeep]
    rfl
  · simp [sanitize, _sanitize, hd, cloneDeep]
    rfl

/-- C9 witness at a concrete policy, tag, flag and key. -/
theorem c9_opaque_passthrough_witness :
    sanitize defaultPolicy (Value.obj [(("$f".toList), Value.other 7)])
      = Value.obj [(("_f".toList), Value.other 7)] := by
  have h := c9_opaque_passthrough defaultPolicy 7 false ("$f".toList) rfl
  exact h.2.2.2.1

theorem storeExtends_refl (σ : Store) : StoreExtends σ σ :=
  ⟨[], by simp⟩

theorem storeExtends_trans {a b c : Store} :
    StoreExtends a b → StoreExtends b c → StoreExtends a c := by
  rintro ⟨t1, rfl⟩ ⟨t2, rfl⟩
  exact ⟨t1 ++ t2, by simp⟩

theorem storeExtends_append (σ : Store) (l : List HNode) :
    StoreExtends σ (σ ++ l) :=
  ⟨l, rfl⟩

/-- Every heap-level engine function only ever appends to the store: no
node of the original heap is ever written. -/
theorem heapExtendsAll (f : Nat) :
    (∀ σ r out, cloneDeepH f σ r = some out → StoreExtends σ out.1)
    ∧ (∀ σ l out, cloneEntriesH f σ l = some out → StoreExtends σ out.1)
    ∧ (∀ σ l out, cloneItemsH f σ l = some out → StoreExtends σ out.1)
    ∧ (∀ p σ r flag out, recSanH f p σ r flag = some out → StoreExtends σ out.1)
    ∧ (∀ p σ r flag out, valueStepH f p σ r flag = some out → StoreExtends σ out.1)
    ∧ (∀ p σ l acc flag out,
        recSanEntriesH f p σ l acc flag = some out → StoreExtends σ out.1)
    ∧ (∀ p σ l flag out,
        recSanItemsH f p σ l flag = some out → StoreExtends σ out.1) := by
  induction f with
  | zero =>
    refine ⟨?_, ?_, ?_, ?_, ?_, ?_, ?_⟩ <;> intros σ' a b <;> intros <;>
      simp_all [cloneDeepH, cloneEntriesH, cloneItemsH, recSanH, valueStepH,
        recSanEntriesH, recSanItemsH]
  | succ f ih =>
    obtain ⟨ih1, ih2, ih3, ih4, ih5, ih6, ih7⟩ := ih
    refine ⟨?_, ?_, ?_, ?_, ?_, ?_, ?_⟩
    · intro σ r out h
      simp only [cloneDeepH] at h
      cases hr : σ[r]? with
      | none => simp [hr] at h
      | some node =>
        cases node
        case obj entries =>
          simp only [hr] at h
          cases hc : cloneEntriesH f σ entries with
          | none => simp [hc] at h
          | some res =>
            obtain ⟨σ1, e1⟩ := res
            simp only [hc, Option.some.injEq] at h
            subst h
            exact storeExtends_trans (ih2 σ entries (σ1, e1) hc)
              (storeExtends_append σ1 _)
        case arr elems =>
          simp only [hr] at h
          cases hc : cloneItemsH f σ elems with
          | none => simp [hc] at h
          | some res =>
            obtain ⟨σ1, e1⟩ := res
            simp only [hc, Option.some.injEq] at h
            subst h
            exact storeExtends_trans (ih3 σ elems (σ1, e1) hc)
              (storeExtends_append σ1 _)
        all_goals
          simp only [hr, Option.some.injEq] at h
        all_goals subst h
        all_goals exact storeExtends_append σ _
    · intro σ l out h
      cases l with
      | nil =>
        simp only [cloneEntriesH, Option.some.injEq] at h
        subst h
        exact storeExtends_refl σ
      | cons e rest =>
        obtain ⟨k, r⟩ := e
        simp only [cloneEntriesH] at h
        cases hc : cloneDeepH f σ r with
        | none => simp [hc] at h
        | some res =>
          obtain ⟨σ1, r1⟩ := res
          simp only [hc] at h
          cases hc2 : cloneEntriesH f σ1 rest with
          | none => simp [hc2] at h
          | some res2 =>
            obtain ⟨σ2, rest1⟩ := res2
            simp only [hc2, Option.some.injEq] at h
            subst h
            exact storeExtends_trans (ih1 σ r (σ1, r1) hc)
              (ih2 σ1 rest (σ2, rest1) hc2)
    · intro σ l out h
      cases l with
      | nil =>
        simp only [cloneItemsH, Option.some.injEq] at h
        subst h
        exact storeExtends_refl σ
      | cons r rest =>
        simp only [cloneItemsH] at h
        cases hc : cloneDeepH f σ r with
        | none => simp [hc] at h
        | some res =>
          obtain ⟨σ1, r1⟩ := res
          simp only [hc] at h
          cases hc2 : cloneItemsH f σ1 rest with
          | none => simp [hc2] at h
          | some res2 =>
            obtain ⟨σ2, rest1⟩ := res2
            simp only [hc2, Option.some.injEq] at h
            subst h
            exact storeExtends_trans (ih1 σ r (σ1, r1) hc)
              (ih3 σ1 rest (σ2, rest1) hc2)
    · intro p σ r flag out h
      simp only [recSanH] at h
      cases hr : σ[r]? with
      | none => simp [hr] at h
      | some node =>
        cases node
        case obj entries =>
          simp only [hr] at h
          cases hc : recSanEntriesH f p σ entries [] flag with
          | none => simp [hc] at h
          | some res =>
            obtain ⟨σ1, acc, flag1⟩ := res
            simp only [hc, Option.some.injEq] at h
            subst h
            exact storeExtends_trans (ih6 p σ entries [] flag (σ1, acc, flag1) hc)
              (storeExtends_append σ1 _)
        case arr elems =>
          simp only [hr] at h
          cases hc : recSanItemsH f p σ elems flag with
          | none => simp [hc] at h
          | some res =>
            obtain ⟨σ1, refs, flag1⟩ := res
            simp only [hc, Option.some.injEq] at h
            subst h
            exact storeExtends_trans (ih7 p σ elems flag (σ1, refs, flag1) hc)
              (storeExtends_append σ1 _)
        all_goals
          simp only [hr, Option.some.injEq] at h
        all_goals subst h
        all_goals exact storeExtends_refl σ
    · intro p σ r flag out h
      simp only [valueStepH] at h
      cases hr : σ[r]? with
      | none => simp [hr] at h
      | some node =>
        cases node
        case obj entries =>
          simp only [hr] at h
          exact ih4 p σ r flag out h
        case arr elems =>
          simp only [hr] at h
          exact ih4 p σ r flag out h
        case str s =>
          simp only [hr] at h
          by_cases hcf : containsForbidden p.allowDots s = true
          · by_cases hd : p.dryRun = true
            · simp [hcf, hd] at h
              subst h
              exact storeExtends_refl σ
            · simp [hcf, hd] at h
              subst h
              exact storeExtends_append σ _
          · simp [hcf] at h
            subst h
            exact storeExtends_refl σ
        all_goals
          simp only [hr, Option.some.injEq] at h
        all_goals subst h
        all_goals exact storeExtends_refl σ
    · intro p σ l acc flag out h
      cases l with
      | nil =>
        simp only [recSanEntriesH, Option.some.injEq] at h
        subst h
        exact storeExtends_refl σ
      | cons e rest =>
        obtain ⟨k, vr⟩ := e
        simp only [recSanEntriesH] at h
        cases hv : valueStepH f p σ vr
            (if containsForbidden p.allowDots k && !p.dryRun then true
              else flag) with
        | none =>
          rw [hv] at h
          simp at h
        | some res =>
          obtain ⟨σ1, vr1, flag2⟩ := res
          rw [hv] at h
          exact storeExtends_trans (ih5 p σ vr _ (σ1, vr1, flag2) hv)
            (ih6 p σ1 rest _ flag2 out h)
    · intro p σ l flag out h
      cases l with
      | nil =>
        simp only [recSanItemsH, Option.some.injEq] at h
        subst h
        exact storeExtends_refl σ
      | cons r rest =>
        simp only [recSanItemsH] at h
        cases hv : valueStepH f p σ r flag with
        | none => simp [hv] at h
        | some res =>
          obtain ⟨σ1, r1, flag2⟩ := res
          simp only [hv] at h
          cases hrest : recSanItemsH f p σ1 rest flag2 with
          | none => simp [hrest] at h
          | some res2 =>
            obtain ⟨σ2, rest1, flag3⟩ := res2
            simp only [hrest, Option.some.injEq] at h
            subst h
            exact storeExtends_trans (ih5 p σ r flag (σ1, r1, flag2) hv)
              (ih7 p σ1 rest flag2 (σ2, rest1, flag3) hrest)

/-- The heap-level `_sanitize` also only appends to the store. -/
theorem _sanitizeH_extends (f : Nat) (p : Policy) (σ : Store) (r : Nat)
    (out : Store × Bool × Nat) (h : _sanitizeH f p σ r = some out) :
    StoreExtends σ out.1 := by
  cases f with
  | zero => simp [_sanitizeH] at h
  | succ f =>
    obtain ⟨ih1, _, _, ih4, _, _, _⟩ := heapExtendsAll f
    simp only [_sanitizeH] at h
    cases hr : σ[r]? with
    | none => simp [hr] at h
    | some node =>
      cases node
      case str s =>
        simp only [hr] at h
        by_cases hcf : containsForbidden p.allowDots s = true
        · by_cases hd : p.dryRun = true
          · simp [hcf, hd] at h
            subst h
            exact storeExtends_refl σ
          · simp [hcf, hd] at h
            subst h
            exact storeExtends_append σ _
        · simp [hcf] at h
          subst h
          exact storeExtends_refl σ
      case obj entries =>
        simp only [hr] at h
        cases hc : cloneDeepH f σ r with
        | none => simp [hc] at h
        | some res =>
          obtain ⟨σ1, r1⟩ := res
          simp only [hc] at h
          cases hs : recSanH f p σ1 r1 false with
          | none => simp [hs] at h
          | some res2 =>
            obtain ⟨σ2, r2, flag⟩ := res2
            simp only [hs, Option.some.injEq] at h
            subst h
            exact storeExtends_trans (ih1 σ r (σ1, r1) hc)
              (ih4 p σ1 r1 false (σ2, r2, flag) hs)
      case arr elems =>
        simp only [hr] at h
        cases hc : cloneDeepH f σ r with
        | none => simp [hc] at h
        | some res =>
          obtain ⟨σ1, r1⟩ := res
          simp only [hc] at h
          cases hs : recSanH f p σ1 r1 false with
          | none => simp [hs] at h
          | some res2 =>
            obtain ⟨σ2, r2, flag⟩ := res2
            simp only [hs, Option.some.injEq] at h
            subst h
            exact storeExtends_trans (ih1 σ r (σ1, r1) hc)
              (ih4 p σ1 r1 false (σ2, r2, flag) hs)
      all_goals
        simp only [hr, Option.some.injEq] at h
      all_goals subst h
      all_goals exact storeExtends_refl σ

theorem storeWF_refs (σ : Store) (hwf : storeWF σ = true) (r : Nat)
    (node : HNode) (hr : σ[r]? = some node) :
    ∀ x ∈ refsOf node, x < σ.length := by
  have hmem : node ∈ σ := by
    have hlt : r < σ.length := by
      cases hlen : decide (r < σ.length) with
      | true => exact of_decide_eq_true hlen
      | false =>
        have : σ[r]? = none := List.getElem?_eq_none (by
          have := of_decide_eq_false hlen
          omega)
        rw [this] at hr
        exact absurd hr (by simp)
    exact List.getElem?_mem hr
  unfold storeWF at hwf
  rw [List.all_eq_true] at hwf
  have h2 := hwf node hmem
  rw [List.all_eq_true] at h2
  intro x hx
  exact of_decide_eq_true (h2 x hx)

theorem decodeH_obj (g : Nat) (σ : Store) (r : Nat)
    (entries : List (List Char × Nat)) (hr : σ[r]? = some (HNode.obj entries)) :
    decodeH (g + 1) σ r
      = match decodeEntriesH g σ entries with
        | none => none
        | some l => some (Value.obj l) := by
  simp only [decodeH, hr]

theorem decodeH_arr (g : Nat) (σ : Store) (r : Nat) (elems : List Nat)
    (hr : σ[r]? = some (HNode.arr elems)) :
    decodeH (g + 1) σ r
      = match decodeItemsH g σ elems with
        | none => none
        | some l => some (Value.arr l) := by
  simp only [decodeH, hr]

/-- Reading back (decoding) any reference that was valid before the call
yields the same tree in the extended store: decoding only consults nodes
of the original prefix. -/
theorem decode_agree (g : Nat) :
    ∀ σ ext, storeWF σ = true →
      (∀ r, r < σ.length → decodeH g (σ ++ ext) r = decodeH g σ r)
      ∧ (∀ l : List (List Char × Nat), (∀ x ∈ l, x.2 < σ.length) →
          decodeEntriesH g (σ ++ ext) l = decodeEntriesH g σ l)
      ∧ (∀ l : List Nat, (∀ x ∈ l, x < σ.length) →
          decodeItemsH g (σ ++ ext) l = decodeItemsH g σ l) := by
  induction g with
  | zero => exact fun σ ext hwf => ⟨fun r _ => rfl, fun l _ => rfl, fun l _ => rfl⟩
  | succ g ih =>
    intro σ ext hwf
    obtain ⟨ih1, ih2, ih3⟩ := ih σ ext hwf
    refine ⟨?_, ?_, ?_⟩
    · intro r hrlt
      have hlook : (σ ++ ext)[r]? = σ[r]? := by
        rw [List.getElem?_append, if_pos hrlt]
      cases hr : σ[r]? with
      | none =>
        simp only [decodeH, hr, hlook.trans hr]
      | some node =>
        have h1 : (σ ++ ext)[r]? = some node := hlook.trans hr
        cases node
        case obj entries =>
          rw [decodeH_obj g (σ ++ ext) r entries h1,
            decodeH_obj g σ r entries hr]
          have hrefs := storeWF_refs σ hwf r (HNode.obj entries) hr
          rw [ih2 entries (fun x hx =>
            hrefs x.2 (List.mem_map_of_mem Prod.snd hx))]
        case arr elems =>
          rw [decodeH_arr g (σ ++ ext) r elems h1,
            decodeH_arr g σ r elems hr]
          have hrefs := storeWF_refs σ hwf r (HNode.arr elems) hr
          rw [ih3 elems (fun x hx => hrefs x hx)]
        all_goals simp only [decodeH, h1, hr]
    · intro l hl
      cases l with
      | nil => rfl
      | cons e rest =>
        obtain ⟨k, r⟩ := e
        simp only [decodeEntriesH]
        rw [ih1 r (hl (k, r) (List.mem_cons_self _ _))]
        rw [ih2 rest (fun x hx => hl x (List.mem_cons_of_mem _ hx))]
    · intro l hl
      cases l with
      | nil => rfl
      | cons r rest =>
        simp only [decodeItemsH]
        rw [ih1 r (hl r (List.mem_cons_self _ _))]
        rw [ih3 rest (fun x hx => hl x (List.mem_cons_of_mem _ hx))]

/-- C3: the caller's value is never mutated.  At the heap level, whenever
`_sanitizeH` returns (any fuel, any policy, including `dryRun = false`),
the resulting store extends the original store at the end only, so the
tree decoded from the caller's root reference is unchanged — deep-equal
to its pre-call state — because the engine deep-copies and writes only to
freshly allocated nodes. -/
theorem c3_non_mutation (f g : Nat) (p : Policy) (σ : Store) (r : Nat)
    (out : Store × Bool × Nat) (hwf : storeWF σ = true) (hr : r < σ.length)
    (h : _sanitizeH f p σ r = some out) :
    decodeH g out.1 r = decodeH g σ r := by
  obtain ⟨ext, hext⟩ := _sanitizeH_extends f p σ r out h
  rw [hext]
  exact (decode_agree g σ ext hwf).1 r hr

/-- C3 witness: a concrete dirty object on a concrete heap, sanitized
with the default policy (`dryRun = false`); its decoding is untouched. -/
theorem c3_non_mutation_witness :
    decodeH 5 ((_sanitizeH 10 defaultPolicy exampleStore 1).getD
        (exampleStore, false, 0)).1 1
      = decodeH 5 exampleStore 1 :=
  c3_non_mutation 10 5 defaultPolicy exampleStore 1
    ((_sanitizeH 10 defaultPolicy exampleStore 1).getD (exampleStore, false, 0))
    (by decide) (by decide) (by rfl)

/-- C10 (implicit): the replacement string is inserted without being
rescanned, so a policy whose replacement contains a forbidden character
leaves forbidden characters in the output: `has` of
`sanitize("a.b", {replaceWith: "$"})` is true, and outside the default
policy re-sanitizing is not a no-op (`replaceWith = ".."` on `"a$b"`
gives `"a..b"`, then `"a....b"`). -/
theorem c10_replacement_not_rescanned :
    has (sanitize ⟨['$'], false, false⟩ (Value.str ("a.b".toList))) = true
    ∧ sanitize ⟨['$'], false, false⟩ (Value.str ("a.b".toList))
        = Value.str ("a$b".toList)
    ∧ sanitize ⟨("..".toList), false, false⟩
          (sanitize ⟨("..".toList), false, false⟩ (Value.str ("a$b".toList)))
        ≠ sanitize ⟨("..".toList), false, false⟩ (Value.str ("a$b".toList)) := by
  refine ⟨rfl, rfl, ?_⟩
  intro h
  exact absurd (Value.str.inj h) (by decide)

end MongoSanitizer
